import Mathlib

/-!
Verification of the NPHeap kernel module (`src/kernel_module/src/ioctl.c`)
against its natural-language specification.

The module keeps a red-black tree (`struct rb_root mytree`) of `struct mytype`
nodes keyed by a 64-bit offset (`unsigned long keystring`), plus a single
global mutex `np_lock`.  `my_search` / `my_insert` are the tree operations
written in the source; `rb_link_node` / `rb_insert_color` come from
`linux/rbtree.h` (the standard red-black insertion fix-up, which the source
explicitly adapts from the kernel.org rbtree documentation), and are embedded
here as a zipper-based rendering of that exact algorithm.  The control-path
entry points (`npheap_mmap`, `npheap_lock`, `npheap_unlock`,
`npheap_getsize`, `npheap_delete`, `npheap_ioctl`) are embedded as
state-passing functions over the module's global state.

Machine integers: keys are `unsigned long` (64-bit); they are modelled as
`Nat` with wrap-around made explicit (`% 2^64`) in the comparison, which in
the C source is `long long result = keystring - data->keystring;` — the
signed 64-bit interpretation of the unsigned difference.
-/

/-- Modulus `2^64` of of `unsigned long` arithmetic on the target. -/
def M64 : Nat := 2 ^ 64

/-- Threshold `2^63`: an unsigned 64-bit value `d` reinterpreted as `long long` is
negative exactly when `d ≥ 2^63`. -/
def H63 : Nat := 2 ^ 63

/-- Value of `PAGE_SHIFT` on the x86-64 target (4K pages). -/
def PAGE_SHIFT : Nat := 12

/-- The `struct npheap_cmd` record (`op`, `offset`, `size`, `data`); the
`void *data` pointer is modelled as a numeric address. -/
structure NpheapCmd where
  op : Nat
  offset : Nat
  size : Nat
  data : Nat
deriving DecidableEq, Repr

/-- The payload of `struct mytype`: the key `keystring` and the stored
`npheap_cmd` record.  The intrusive `struct rb_node` linkage is carried by
the tree structure itself. -/
structure Mytype where
  keystring : Nat
  node_cmd : NpheapCmd
deriving DecidableEq, Repr

/-- Red-black node colour (`linux/rbtree.h`). -/
inductive Color where
  | red
  | black
deriving DecidableEq, Repr

/-- The rb tree: `nil` is the NULL child pointer, `node` is a
`struct mytype` with its colour and children. -/
inductive RBTree where
  | nil
  | node (c : Color) (l : RBTree) (v : Mytype) (r : RBTree)
deriving DecidableEq, Repr

/-- Three-way comparison result (sign of the C `long long result`). -/
inductive KCmp where
  | lt
  | eq
  | gt
deriving DecidableEq, Repr

/-- The comparison both `my_search` and `my_insert` perform:
`long long result = a - b;` with `a`, `b` of type `unsigned long`.
The unsigned difference `d = (a - b) mod 2^64` is reinterpreted as a signed
64-bit value: `result < 0` iff `d ≥ 2^63`, `result > 0` iff `0 < d < 2^63`. -/
def keyCmp (a b : Nat) : KCmp :=
  let d := (a + M64 - b % M64) % M64
  if d = 0 then .eq else if d < H63 then .gt else .lt

/-- Embedding of `my_search` (ioctl.c:85-103): descend from the root, left when
`result < 0`, right when `result > 0`, returning the node on equality and
NULL when a NULL child is reached. -/
def my_search : RBTree → Nat → Option Mytype
  | .nil, _ => none
  | .node _ l v r, keystring =>
    match keyCmp keystring v.keystring with
    | .lt => my_search l keystring
    | .gt => my_search r keystring
    | .eq => some v

/-- One step of the descent context: `leftOf c v r` records that the hole is
the left child of a node with colour `c`, payload `v` and right subtree `r`
(and symmetrically `rightOf`).  This is the path from the insertion point
back to the root, innermost frame first — the parent pointers of the
imperative code. -/
inductive Frame where
  | leftOf (c : Color) (v : Mytype) (r : RBTree)
  | rightOf (c : Color) (l : RBTree) (v : Mytype)
deriving DecidableEq, Repr

/-- The colour stored in a frame (the colour of the parent node). -/
def Frame.color : Frame → Color
  | .leftOf c _ _ => c
  | .rightOf c _ _ => c

/-- Rebuild the tree from a subtree sitting in the hole of a path. -/
def plug : RBTree → List Frame → RBTree
  | t, [] => t
  | t, .leftOf c v r :: p => plug (.node c t v r) p
  | t, .rightOf c l v :: p => plug (.node c l v t) p

/-- The descent loop of `my_insert` (ioctl.c:117-128): walk down comparing
`data->keystring` against each node, recording the path; `none` when an
equal key is found (`my_insert` then returns 0 without linking), otherwise
the path to the NULL child where `rb_link_node` will attach the node. -/
def descend : RBTree → Nat → List Frame → Option (List Frame)
  | .nil, _, p => some p
  | .node c l v r, keystring, p =>
    match keyCmp keystring v.keystring with
    | .lt => descend l keystring (.leftOf c v r :: p)
    | .gt => descend r keystring (.rightOf c l v :: p)
    | .eq => none

/-- Paint the root of a subtree black (`rb_set_black`); NULL stays NULL. -/
def setBlack : RBTree → RBTree
  | .nil => .nil
  | .node _ l v r => .node .black l v r

/-- Is the subtree a red node?  (NULL counts as black, as in the kernel.) -/
def isRed : RBTree → Bool
  | .node .red _ _ _ => true
  | _ => false

/-- Embedding of `rb_insert_color` (`linux/rbtree.h`), the standard red-black insertion
fix-up the source adapts from the kernel.org rbtree documentation, rendered
on the descent path: `z` is the current red node's subtree, the list is the
path of ancestor frames.  While the parent is red, either recolour and move
up two frames (red uncle), or rotate at the grandparent and stop (black
uncle, the four rotation cases); finally the root is painted black. -/
def fixup : RBTree → List Frame → RBTree
  | z, [] => setBlack z
  | z, pf :: rest =>
    if pf.color = Color.black then
      -- parent black: the loop exits at once; relink and blacken the root
      setBlack (plug z (pf :: rest))
    else
      match pf, rest with
      | pf, [] =>
        -- red parent with no grandparent: unreachable (the root is black)
        setBlack (plug z (pf :: []))
      | .leftOf _ pv s1, .leftOf _ gv u :: rest2 =>
        if isRed u then
          fixup (.node .red (.node .black z pv s1) gv (setBlack u)) rest2
        else
          setBlack (plug (.node .black z pv (.node .red s1 gv u)) rest2)
      | .leftOf pc pv s1, .rightOf gc u gv :: rest2 =>
        if isRed u then
          fixup (.node .red (setBlack u) gv (.node .black z pv s1)) rest2
        else
          match z with
          | .node _ a zv b =>
            setBlack (plug (.node .black (.node .red u gv a) zv
              (.node .red b pv s1)) rest2)
          | .nil =>
            -- unreachable: the current node is always a real node
            setBlack (plug .nil (.leftOf pc pv s1 :: .rightOf gc u gv :: rest2))
      | .rightOf pc s1 pv, .leftOf gc gv u :: rest2 =>
        if isRed u then
          fixup (.node .red (.node .black s1 pv z) gv (setBlack u)) rest2
        else
          match z with
          | .node _ a zv b =>
            setBlack (plug (.node .black (.node .red s1 pv a) zv
              (.node .red b gv u)) rest2)
          | .nil =>
            setBlack (plug .nil (.rightOf pc s1 pv :: .leftOf gc gv u :: rest2))
      | .rightOf _ s1 pv, .rightOf _ u gv :: rest2 =>
        if isRed u then
          fixup (.node .red (setBlack u) gv (.node .black s1 pv z)) rest2
        else
          setBlack (plug (.node .black (.node .red u gv s1) pv z) rest2)

/-- Embedding of `my_insert` (ioctl.c:112-135): descend comparing keys; if an equal key
is met return 0 with the tree untouched, else link the new node red at the
NULL position (`rb_link_node`) and rebalance (`rb_insert_color`),
returning 1. -/
def my_insert (t : RBTree) (data : Mytype) : Int × RBTree :=
  match descend t data.keystring [] with
  | none => (0, t)
  | some p => (1, fixup (.node .red .nil data .nil) p)

/-- The tree obtained from the empty root by a sequence of `my_insert`
calls (rejected duplicates leave the tree unchanged, as in the source). -/
def buildTree (ds : List Mytype) : RBTree :=
  ds.foldl (fun t d => (my_insert t d).2) .nil

/-- In-order list of the stored records. -/
def nodes : RBTree → List Mytype
  | .nil => []
  | .node _ l v r => nodes l ++ v :: nodes r

/-- In-order list of keys. -/
def keys (t : RBTree) : List Nat :=
  (nodes t).map Mytype.keystring

/-- The module's global state: the tree root `mytree` and the mutex
`np_lock` (held / free). -/
structure KState where
  mytree : RBTree
  np_lock : Bool
deriving DecidableEq, Repr

/-- The `vm_area_struct` fields `npheap_mmap` reads. -/
structure VmArea where
  vm_start : Nat
  vm_end : Nat
  vm_pgoff : Nat
deriving DecidableEq, Repr

/-- Embedding of `npheap_mmap` (ioctl.c:237-251): computes the offset and size, searches
the tree; both the not-found branch and the found branch are empty in the
source (the allocation / remap logic was never written), so the function
returns 0 leaving the state untouched. -/
def npheap_mmap (vma : VmArea) (s : KState) : Int × KState :=
  let offset := (vma.vm_pgoff <<< PAGE_SHIFT) % M64
  let _size := vma.vm_end - vma.vm_start
  match my_search s.mytree offset with
  | none => (0, s)
  | some _ => (0, s)

/-- Embedding of `npheap_lock` (ioctl.c:278-282): `mutex_lock(&np_lock); return 0;` —
modelled as the post-acquire state (the blocking itself is not modelled). -/
def npheap_lock (_user_cmd : NpheapCmd) (s : KState) : Int × KState :=
  (0, { s with np_lock := true })

/-- Embedding of `npheap_unlock` (ioctl.c:290-294): `mutex_unlock(&np_lock); return 0;`
unconditionally — no holder-identity check and no held check. -/
def npheap_unlock (_user_cmd : NpheapCmd) (s : KState) : Int × KState :=
  (0, { s with np_lock := false })

/-- Embedding of `npheap_getsize` (ioctl.c:302-305): the body is `return 0;` — the tree
is never consulted. -/
def npheap_getsize (_user_cmd : NpheapCmd) (s : KState) : Int × KState :=
  (0, s)

/-- Embedding of `npheap_delete` (ioctl.c:313-316): the body is `return 0;` — nothing is
searched, removed or freed. -/
def npheap_delete (_user_cmd : NpheapCmd) (s : KState) : Int × KState :=
  (0, s)

/-- Modelled from the spec: the four ioctl command codes come from
`npheap.h`, which is not under `src/`; the spec fixes only that there are
four distinct operations (LOCK, UNLOCK, GETSIZE, DELETE), so the codes are
modelled as four arbitrary distinct values. -/
def NPHEAP_IOCTL_LOCK : Nat := 0

/-- Modelled from the spec: see `NPHEAP_IOCTL_LOCK`. -/
def NPHEAP_IOCTL_UNLOCK : Nat := 1

/-- Modelled from the spec: see `NPHEAP_IOCTL_LOCK`. -/
def NPHEAP_IOCTL_GETSIZE : Nat := 2

/-- Modelled from the spec: see `NPHEAP_IOCTL_LOCK`. -/
def NPHEAP_IOCTL_DELETE : Nat := 3

/-- Errno `ENOTTY` (inappropriate ioctl), the standard Linux errno value;
`errno.h` is outside the repository. -/
def ENOTTY : Int := 25

/-- Embedding of `npheap_ioctl` (ioctl.c:320-335): dispatch on the command code, with
`-ENOTTY` for any unknown code. -/
def npheap_ioctl (cmd : Nat) (arg : NpheapCmd) (s : KState) : Int × KState :=
  if cmd = NPHEAP_IOCTL_LOCK then npheap_lock arg s
  else if cmd = NPHEAP_IOCTL_UNLOCK then npheap_unlock arg s
  else if cmd = NPHEAP_IOCTL_GETSIZE then npheap_getsize arg s
  else if cmd = NPHEAP_IOCTL_DELETE then npheap_delete arg s
  else (-ENOTTY, s)

/-- The `my_search` loop with the module state threaded through explicitly:
every statement of the C loop only reads (`node->rb_left`, `rb_right`,
`container_of`, the key comparison); no state is ever written. -/
def my_search_loop : RBTree → Nat → KState → Option Mytype × KState
  | .nil, _, s => (none, s)
  | .node _ l v r, keystring, s =>
    match keyCmp keystring v.keystring with
    | .lt => my_search_loop l keystring s
    | .gt => my_search_loop r keystring s
    | .eq => (some v, s)

/-- Running `my_search` on the module's tree as a state transformer. -/
def my_search_op (keystring : Nat) (s : KState) : Option Mytype × KState :=
  my_search_loop s.mytree keystring s

/-- Specification-side plain BST insert along the same comparison: `none` on
an equal key, otherwise the tree with the new red leaf attached at the
descent position.  `my_insert`'s descent-plus-`rb_link_node` is proved equal
to this (before rebalancing), and the fix-up is proved to preserve the
in-order node list. -/
def bstInsert : RBTree → Mytype → Option RBTree
  | .nil, d => some (.node .red .nil d .nil)
  | .node c l v r, d =>
    match keyCmp d.keystring v.keystring with
    | .lt => (bstInsert l d).map (fun l' => .node c l' v r)
    | .gt => (bstInsert r d).map (fun r' => .node c l v r')
    | .eq => none

/-- The in-order node list of `plug t p`, as a function of the in-order
node list of the subtree `t` in the hole. -/
def pathNodes : List Mytype → List Frame → List Mytype
  | xs, [] => xs
  | xs, .leftOf _ v r :: p => pathNodes (xs ++ v :: nodes r) p
  | xs, .rightOf _ l v :: p => pathNodes (nodes l ++ v :: xs) p

/-- All keys of the tree are below `2^63`, so every comparison the tree ever
performs is free of signed wrap-around. -/
def SmallKeys (t : RBTree) : Prop := ∀ x ∈ keys t, x < H63

/-- The in-order key list is strictly increasing (the binary-search-tree
property, phrased on the in-order traversal). -/
def SortedKeys (t : RBTree) : Prop := (keys t).Pairwise (· < ·)

/-- A tree record carrying a given offset key (`op`/`size`/`data` zero). -/
def mkNode (k : Nat) : Mytype := ⟨k, ⟨0, k, 0, 0⟩⟩

/-- An eight-insert sequence (all inserts succeed) after which the key
`0x4000000000000001` is in the tree but `my_search` misses it: the signed
64-bit comparison is not transitive across differences of `2^63` or more,
and the rebalancing rotations place the node above keys it was never
compared with. -/
def seq8 : List Mytype :=
  [mkNode 0xc000000000000000, mkNode 0x4000000000000001,
   mkNode 0x3fffffffffffffff, mkNode 2, mkNode 0xc000000000000001,
   mkNode 0, mkNode 0xffffffffffffffff, mkNode 1]

/-- Sequence `seq8` followed by a second insert of the missed key
`0x4000000000000001`: the descent does not meet the existing node, so
`my_insert` accepts the duplicate. -/
def seq9 : List Mytype := seq8 ++ [mkNode 0x4000000000000001]

/-- In-order nodes of a node. -/
@[simp]
theorem nodes_node (c : Color) (l : RBTree) (v : Mytype) (r : RBTree) :
    nodes (.node c l v r) = nodes l ++ v :: nodes r := rfl

/-- In-order nodes of NULL. -/
@[simp]
theorem nodes_nil : nodes .nil = [] := rfl

/-- Painting the root black does not change the stored records. -/
@[simp]
theorem nodes_setBlack (t : RBTree) : nodes (setBlack t) = nodes t := by
  cases t <;> rfl

/-- The in-order node list of a plugged tree, via `pathNodes`. -/
theorem nodes_plug : ∀ (p : List Frame) (t : RBTree),
    nodes (plug t p) = pathNodes (nodes t) p
  | [], _ => rfl
  | .leftOf c v r :: p, t => by
    rw [plug, nodes_plug p, pathNodes, nodes_node]
  | .rightOf c l v :: p, t => by
    rw [plug, nodes_plug p, pathNodes, nodes_node]

/-- Function `pathNodes` only depends on the node list in the hole. -/
theorem pathNodes_congr {xs ys : List Mytype} (h : xs = ys) (p : List Frame) :
    pathNodes xs p = pathNodes ys p := by rw [h]

/-- The red-black fix-up only recolours and rotates: the in-order record
list of the result is that of plainly plugging the new subtree into the
descent path. -/
theorem nodes_fixup : ∀ (p : List Frame) (z : RBTree),
    nodes (fixup z p) = nodes (plug z p)
  | [], z => by simp [fixup, plug]
  | [pf], z => by
    simp only [fixup]
    split <;> simp
  | .leftOf pc pv s1 :: .leftOf gc gv u :: rest2, z => by
    simp only [fixup]
    split
    · simp
    · split
      · rw [nodes_fixup rest2, nodes_plug, nodes_plug]
        simp only [pathNodes]
        exact pathNodes_congr (by simp [List.append_assoc]) rest2
      · rw [nodes_setBlack, nodes_plug, nodes_plug]
        simp only [pathNodes]
        exact pathNodes_congr (by simp [List.append_assoc]) rest2
  | .leftOf pc pv s1 :: .rightOf gc u gv :: rest2, .nil => by
    simp only [fixup]
    split
    · simp
    · split
      · rw [nodes_fixup rest2, nodes_plug, nodes_plug]
        simp only [pathNodes]
        exact pathNodes_congr (by simp [List.append_assoc]) rest2
      · rw [nodes_setBlack]
  | .leftOf pc pv s1 :: .rightOf gc u gv :: rest2, .node zc a zv b => by
    simp only [fixup]
    split
    · simp
    · split
      · rw [nodes_fixup rest2, nodes_plug, nodes_plug]
        simp only [pathNodes]
        exact pathNodes_congr (by simp [List.append_assoc]) rest2
      · rw [nodes_setBlack, nodes_plug, nodes_plug]
        simp only [pathNodes]
        exact pathNodes_congr (by simp [List.append_assoc]) rest2
  | .rightOf pc s1 pv :: .leftOf gc gv u :: rest2, .nil => by
    simp only [fixup]
    split
    · simp
    · split
      · rw [nodes_fixup rest2, nodes_plug, nodes_plug]
        simp only [pathNodes]
        exact pathNodes_congr (by simp [List.append_assoc]) rest2
      · rw [nodes_setBlack]
  | .rightOf pc s1 pv :: .leftOf gc gv u :: rest2, .node zc a zv b => by
    simp only [fixup]
    split
    · simp
    · split
      · rw [nodes_fixup rest2, nodes_plug, nodes_plug]
        simp only [pathNodes]
        exact pathNodes_congr (by simp [List.append_assoc]) rest2
      · rw [nodes_setBlack, nodes_plug, nodes_plug]
        simp only [pathNodes]
        exact pathNodes_congr (by simp [List.append_assoc]) rest2
  | .rightOf pc s1 pv :: .rightOf gc u gv :: rest2, z => by
    simp only [fixup]
    split
    · simp
    · split
      · rw [nodes_fixup rest2, nodes_plug, nodes_plug]
        simp only [pathNodes]
        exact pathNodes_congr (by simp [List.append_assoc]) rest2
      · rw [nodes_setBlack, nodes_plug, nodes_plug]
        simp only [pathNodes]
        exact pathNodes_congr (by simp [List.append_assoc]) rest2

/-- In-order keys of a node. -/
@[simp]
theorem keys_node (c : Color) (l : RBTree) (v : Mytype) (r : RBTree) :
    keys (.node c l v r) = keys l ++ v.keystring :: keys r := by
  simp [keys]

/-- In-order keys of NULL. -/
@[simp]
theorem keys_nil : keys .nil = [] := rfl

/-- For keys below `2^63` the signed 64-bit difference never wraps, so the
source's comparison is exactly the natural-number comparison. -/
theorem keyCmp_eq_of {a b : Nat} (ha : a < H63) (hb : b < H63) :
    keyCmp a b = if a < b then KCmp.lt else if b < a then KCmp.gt else KCmp.eq := by
  have h64 : M64 = 18446744073709551616 := by norm_num [M64]
  have h63 : H63 = 9223372036854775808 := by norm_num [H63]
  rw [h63] at ha hb
  simp only [keyCmp, h64, h63]
  have hbm : b % 18446744073709551616 = b := Nat.mod_eq_of_lt (by omega)
  rw [hbm]
  split_ifs <;> first | rfl | omega

/-- The insertion descent agrees with the plain BST insert: a `none` descent
is a duplicate, and a successful descent plugs the fresh red leaf exactly
where `bstInsert` would put it. -/
theorem descend_bst (d : Mytype) : ∀ (t : RBTree) (p : List Frame),
    (descend t d.keystring p = none → bstInsert t d = none) ∧
    (∀ p', descend t d.keystring p = some p' →
      ∃ t', bstInsert t d = some t' ∧
        plug (.node .red .nil d .nil) p' = plug t' p)
  | .nil, p => by
    refine ⟨fun h => by simp [descend] at h, fun p' h => ?_⟩
    simp only [descend, Option.some.injEq] at h
    subst h
    exact ⟨_, rfl, rfl⟩
  | .node c l v r, p => by
    cases h : keyCmp d.keystring v.keystring with
    | lt =>
      have ih := descend_bst d l (.leftOf c v r :: p)
      simp only [descend, bstInsert, h]
      refine ⟨fun h1 => by rw [ih.1 h1]; rfl, fun p' h1 => ?_⟩
      obtain ⟨l', hb, hp⟩ := ih.2 p' h1
      exact ⟨.node c l' v r, by rw [hb]; rfl, by rw [hp]; rfl⟩
    | gt =>
      have ih := descend_bst d r (.rightOf c l v :: p)
      simp only [descend, bstInsert, h]
      refine ⟨fun h1 => by rw [ih.1 h1]; rfl, fun p' h1 => ?_⟩
      obtain ⟨r', hb, hp⟩ := ih.2 p' h1
      exact ⟨.node c l v r', by rw [hb]; rfl, by rw [hp]; rfl⟩
    | eq =>
      simp only [descend, bstInsert, h]
      simp

/-- A duplicate key: `my_insert` returns 0 and hands back the very tree it
was given. -/
theorem my_insert_of_dup (t : RBTree) (d : Mytype) (h : bstInsert t d = none) :
    my_insert t d = (0, t) := by
  unfold my_insert
  cases hd : descend t d.keystring [] with
  | none => rfl
  | some p =>
    obtain ⟨t', ht', _⟩ := (descend_bst d t []).2 p hd
    rw [h] at ht'
    cases ht'

/-- A fresh key: `my_insert` returns 1 and the result carries the same
in-order records as the plain BST insert. -/
theorem my_insert_of_new (t : RBTree) (d : Mytype) (t' : RBTree)
    (h : bstInsert t d = some t') :
    (my_insert t d).1 = 1 ∧ nodes (my_insert t d).2 = nodes t' := by
  unfold my_insert
  cases hd : descend t d.keystring [] with
  | none =>
    rw [(descend_bst d t []).1 hd] at h
    cases h
  | some p =>
    obtain ⟨t'', ht'', hplug⟩ := (descend_bst d t []).2 p hd
    rw [h] at ht''
    injection ht'' with he
    subst he
    refine ⟨rfl, ?_⟩
    show nodes (fixup (.node .red .nil d .nil) p) = nodes t'
    rw [nodes_fixup, hplug]
    rfl

/-- The left subtree of a small-keyed tree is small-keyed. -/
theorem smallKeys_left {c : Color} {l : RBTree} {v : Mytype} {r : RBTree}
    (h : SmallKeys (.node c l v r)) : SmallKeys l :=
  fun x hx => h x (by simp [hx])

/-- The right subtree of a small-keyed tree is small-keyed. -/
theorem smallKeys_right {c : Color} {l : RBTree} {v : Mytype} {r : RBTree}
    (h : SmallKeys (.node c l v r)) : SmallKeys r :=
  fun x hx => h x (by simp [hx])

/-- The root key of a small-keyed tree is small. -/
theorem smallKeys_val {c : Color} {l : RBTree} {v : Mytype} {r : RBTree}
    (h : SmallKeys (.node c l v r)) : v.keystring < H63 :=
  h v.keystring (by simp)

/-- Left subtree of a sorted tree is sorted. -/
theorem sortedKeys_left {c : Color} {l : RBTree} {v : Mytype} {r : RBTree}
    (h : SortedKeys (.node c l v r)) : SortedKeys l := by
  have := (List.pairwise_append.1 (by simpa [SortedKeys] using h)).1
  exact this

/-- Right subtree of a sorted tree is sorted. -/
theorem sortedKeys_right {c : Color} {l : RBTree} {v : Mytype} {r : RBTree}
    (h : SortedKeys (.node c l v r)) : SortedKeys r := by
  have := (List.pairwise_append.1 (by simpa [SortedKeys] using h)).2.1
  exact (List.pairwise_cons.1 this).2

/-- In a sorted tree every key in the right subtree exceeds the root key. -/
theorem sortedKeys_lt_right {c : Color} {l : RBTree} {v : Mytype} {r : RBTree}
    (h : SortedKeys (.node c l v r)) : ∀ x ∈ keys r, v.keystring < x := by
  have := (List.pairwise_append.1 (by simpa [SortedKeys] using h)).2.1
  exact (List.pairwise_cons.1 this).1

/-- In a sorted tree every key in the left subtree is below the root key
(and below everything to the right of it). -/
theorem sortedKeys_gt_left {c : Color} {l : RBTree} {v : Mytype} {r : RBTree}
    (h : SortedKeys (.node c l v r)) :
    ∀ x ∈ keys l, ∀ y ∈ v.keystring :: keys r, x < y := by
  exact (List.pairwise_append.1 (by simpa [SortedKeys] using h)).2.2

/-- Correctness of `my_search` on sorted trees with keys below `2^63`:
`none` exactly when the key is absent, and a returned record is a record of
the tree carrying the searched key. -/
theorem my_search_spec : ∀ (t : RBTree), SmallKeys t → SortedKeys t →
    ∀ k, k < H63 →
    (my_search t k = none ↔ k ∉ keys t) ∧
    (∀ w, my_search t k = some w → w ∈ nodes t ∧ w.keystring = k)
  | .nil, _, _, k, _ => by simp [my_search, keys, nodes]
  | .node c l v r, hsm, hso, k, hk => by
    have hv : v.keystring < H63 := smallKeys_val hsm
    rcases Nat.lt_trichotomy k v.keystring with hlt | heq | hgt
    · have hc : keyCmp k v.keystring = .lt := by
        rw [keyCmp_eq_of hk hv]
        simp [hlt]
      have ih := my_search_spec l (smallKeys_left hsm) (sortedKeys_left hso) k hk
      have hnotr : k ∉ v.keystring :: keys r := by
        intro hmem
        rcases List.mem_cons.1 hmem with h1 | h1
        · omega
        · have := sortedKeys_lt_right hso k h1
          omega
      simp only [my_search, hc]
      refine ⟨?_, ?_⟩
      · rw [ih.1]
        constructor
        · intro h hmem
          simp only [keys_node, List.mem_append, List.mem_cons] at hmem
          rcases hmem with h1 | h1 | h1
          · exact h h1
          · omega
          · have := sortedKeys_lt_right hso k h1
            omega
        · intro h h1
          exact h (by simp [h1])
      · intro w hw
        obtain ⟨hmem, hkey⟩ := ih.2 w hw
        exact ⟨by simp [hmem], hkey⟩
    · have hc : keyCmp k v.keystring = .eq := by
        rw [keyCmp_eq_of hk hv]
        simp [heq]
      simp only [my_search, hc]
      refine ⟨⟨fun h => Option.noConfusion h,
        fun h => absurd (show k ∈ keys (.node c l v r) by simp [heq]) h⟩, ?_⟩
      intro w hw
      injection hw with hw
      subst hw
      exact ⟨by simp, heq.symm⟩
    · have hc : keyCmp k v.keystring = .gt := by
        rw [keyCmp_eq_of hk hv]
        have : ¬ k < v.keystring := by omega
        simp [this, hgt]
      have ih := my_search_spec r (smallKeys_right hsm) (sortedKeys_right hso) k hk
      have hnotl : ∀ x ∈ keys l, x ≠ k := by
        intro x hx
        have := sortedKeys_gt_left hso x hx v.keystring (by simp)
        omega
      simp only [my_search, hc]
      refine ⟨?_, ?_⟩
      · rw [ih.1]
        constructor
        · intro h hmem
          simp only [keys_node, List.mem_append, List.mem_cons] at hmem
          rcases hmem with h1 | h1 | h1
          · exact hnotl k h1 rfl
          · omega
          · exact h h1
        · intro h h1
          exact h (by simp [h1])
      · intro w hw
        obtain ⟨hmem, hkey⟩ := ih.2 w hw
        exact ⟨by simp [hmem], hkey⟩

/-- The plain BST insert on a sorted small-keyed tree: a duplicate is
reported exactly when the key is present; a successful insert adds exactly
the new key and preserves sortedness and smallness. -/
theorem bstInsert_spec (d : Mytype) (hd : d.keystring < H63) :
    ∀ (t : RBTree), SmallKeys t → SortedKeys t →
    (bstInsert t d = none → d.keystring ∈ keys t) ∧
    (∀ t', bstInsert t d = some t' →
      d.keystring ∉ keys t ∧
      (∀ x, x ∈ keys t' ↔ x = d.keystring ∨ x ∈ keys t) ∧
      SmallKeys t' ∧ SortedKeys t')
  | .nil, _, _ => by
    refine ⟨fun h => Option.noConfusion h, fun t' ht' => ?_⟩
    simp only [bstInsert, Option.some.injEq] at ht'
    subst ht'
    refine ⟨by simp, by simp, ?_, ?_⟩
    · intro x hx
      simp at hx
      omega
    · simp [SortedKeys]
  | .node c l v r, hsm, hso => by
    have hv : v.keystring < H63 := smallKeys_val hsm
    rcases Nat.lt_trichotomy d.keystring v.keystring with hlt | heq | hgt
    · have hc : keyCmp d.keystring v.keystring = .lt := by
        rw [keyCmp_eq_of hd hv]
        simp [hlt]
      have ih := bstInsert_spec d hd l (smallKeys_left hsm) (sortedKeys_left hso)
      simp only [bstInsert, hc]
      refine ⟨fun h => ?_, fun t' ht' => ?_⟩
      · have := ih.1 (Option.map_eq_none'.1 h)
        simp only [keys_node, List.mem_append, List.mem_cons]
        tauto
      · obtain ⟨l', hb, hf⟩ := Option.map_eq_some'.1 ht'
        subst hf
        obtain ⟨hnotin, hmem, hsm', hso'⟩ := ih.2 l' hb
        refine ⟨?_, ?_, ?_, ?_⟩
        · intro hmem2
          simp only [keys_node, List.mem_append, List.mem_cons] at hmem2
          rcases hmem2 with h1 | h1 | h1
          · exact hnotin h1
          · omega
          · have := sortedKeys_lt_right hso _ h1
            omega
        · intro x
          simp only [keys_node, List.mem_append, List.mem_cons, hmem]
          tauto
        · intro x hx
          simp only [keys_node, List.mem_append, List.mem_cons] at hx
          rcases hx with h1 | h1 | h1
          · exact hsm' x h1
          · omega
          · exact smallKeys_right hsm x h1
        · have hso2 : (keys l ++ v.keystring :: keys r).Pairwise (· < ·) := by
            simpa only [SortedKeys, keys_node] using hso
          simp only [SortedKeys, keys_node]
          rw [List.pairwise_append]
          refine ⟨by simpa only [SortedKeys] using hso',
            (List.pairwise_append.1 hso2).2.1, ?_⟩
          intro a ha b hb2
          rcases (hmem a).1 ha with h1 | h1
          · subst h1
            rcases List.mem_cons.1 hb2 with h2 | h2
            · omega
            · have := sortedKeys_lt_right hso b h2
              omega
          · exact sortedKeys_gt_left hso a h1 b hb2
    · have hc : keyCmp d.keystring v.keystring = .eq := by
        rw [keyCmp_eq_of hd hv]
        simp [heq]
      simp only [bstInsert, hc]
      exact ⟨fun _ => by simp [heq], fun t' ht' => by cases ht'⟩
    · have hc : keyCmp d.keystring v.keystring = .gt := by
        rw [keyCmp_eq_of hd hv]
        have : ¬ d.keystring < v.keystring := by omega
        simp [this, hgt]
      have ih := bstInsert_spec d hd r (smallKeys_right hsm) (sortedKeys_right hso)
      simp only [bstInsert, hc]
      refine ⟨fun h => ?_, fun t' ht' => ?_⟩
      · have := ih.1 (Option.map_eq_none'.1 h)
        simp only [keys_node, List.mem_append, List.mem_cons]
        tauto
      · obtain ⟨r', hb, hf⟩ := Option.map_eq_some'.1 ht'
        subst hf
        obtain ⟨hnotin, hmem, hsm', hso'⟩ := ih.2 r' hb
        refine ⟨?_, ?_, ?_, ?_⟩
        · intro hmem2
          simp only [keys_node, List.mem_append, List.mem_cons] at hmem2
          rcases hmem2 with h1 | h1 | h1
          · have := sortedKeys_gt_left hso _ h1 v.keystring (by simp)
            omega
          · omega
          · exact hnotin h1
        · intro x
          simp only [keys_node, List.mem_append, List.mem_cons, hmem]
          tauto
        · intro x hx
          simp only [keys_node, List.mem_append, List.mem_cons] at hx
          rcases hx with h1 | h1 | h1
          · exact smallKeys_left hsm x h1
          · omega
          · exact hsm' x h1
        · have hso2 : (keys l ++ v.keystring :: keys r).Pairwise (· < ·) := by
            simpa only [SortedKeys, keys_node] using hso
          simp only [SortedKeys, keys_node]
          rw [List.pairwise_append]
          have horig := List.pairwise_append.1 hso2
          refine ⟨horig.1, ?_, ?_⟩
          · rw [List.pairwise_cons]
            refine ⟨?_, by simpa only [SortedKeys] using hso'⟩
            intro b hb2
            rcases (hmem b).1 hb2 with h1 | h1
            · omega
            · exact sortedKeys_lt_right hso b h1
          · intro a ha b hb2
            rcases List.mem_cons.1 hb2 with h2 | h2
            · subst h2
              exact horig.2.2 a ha v.keystring (by simp)
            · rcases (hmem b).1 h2 with h3 | h3
              · have := horig.2.2 a ha v.keystring (by simp)
                omega
              · exact horig.2.2 a ha b (by simp [h3])

/-- Insertion `my_insert` preserves smallness and sortedness of the key list when the
inserted key is below `2^63`. -/
theorem my_insert_inv (t : RBTree) (d : Mytype) (hd : d.keystring < H63)
    (hsm : SmallKeys t) (hso : SortedKeys t) :
    SmallKeys (my_insert t d).2 ∧ SortedKeys (my_insert t d).2 := by
  cases hb : bstInsert t d with
  | none =>
    rw [my_insert_of_dup t d hb]
    exact ⟨hsm, hso⟩
  | some t' =>
    obtain ⟨_, _, hsm', hso'⟩ := (bstInsert_spec d hd t hsm hso).2 t' hb
    have hn := (my_insert_of_new t d t' hb).2
    have hk : keys (my_insert t d).2 = keys t' := by
      unfold keys
      rw [hn]
    constructor
    · intro x hx
      exact hsm' x (hk ▸ hx)
    · unfold SortedKeys
      rw [hk]
      exact hso'

/-- Folding `my_insert` over a list of records preserves the invariant. -/
theorem buildTree_inv_aux : ∀ (ds : List Mytype) (t : RBTree),
    SmallKeys t → SortedKeys t → (∀ d ∈ ds, d.keystring < H63) →
    SmallKeys (ds.foldl (fun t d => (my_insert t d).2) t) ∧
    SortedKeys (ds.foldl (fun t d => (my_insert t d).2) t)
  | [], _, hsm, hso, _ => ⟨hsm, hso⟩
  | d :: ds, t, hsm, hso, hds => by
    have hd : d.keystring < H63 := hds d (by simp)
    obtain ⟨hsm', hso'⟩ := my_insert_inv t d hd hsm hso
    exact buildTree_inv_aux ds _ hsm' hso' (fun x hx => hds x (by simp [hx]))

/-- Every tree built by `my_insert` from offsets below `2^63` has a sorted,
small in-order key list. -/
theorem buildTree_inv (ds : List Mytype) (h : ∀ d ∈ ds, d.keystring < H63) :
    SmallKeys (buildTree ds) ∧ SortedKeys (buildTree ds) :=
  buildTree_inv_aux ds .nil
    (fun x hx => absurd hx (List.not_mem_nil x))
    (by simp [SortedKeys, keys, nodes])
    h

/-- The state-threaded search loop returns its state untouched and computes
exactly `my_search`. -/
theorem my_search_loop_spec : ∀ (t : RBTree) (k : Nat) (s : KState),
    my_search_loop t k s = (my_search t k, s)
  | .nil, _, _ => rfl
  | .node c l v r, k, s => by
    cases h : keyCmp k v.keystring <;>
      simp [my_search_loop, my_search, h,
        my_search_loop_spec l k s, my_search_loop_spec r k s]

/-- C1 (counterexample): the claim fails on the code.  First, after the
eight successful inserts of `seq8`, the key `0x4000000000000001` is stored
in the tree yet `my_search` returns NULL.  Second, placement does not follow
unsigned 64-bit order: inserting `0` then `2^63` puts `2^63` in the *left*
subtree of `0` although `0 < 2^63` unsigned — the signed interpretation of
the 64-bit difference reverses for pairs differing by `2^63` or more. -/
theorem C1_counterexample :
    (0x4000000000000001 ∈ keys (buildTree seq8) ∧
      my_search (buildTree seq8) 0x4000000000000001 = none) ∧
    (buildTree [mkNode 0, mkNode 0x8000000000000000] =
        .node .black (.node .red .nil (mkNode 0x8000000000000000) .nil) (mkNode 0) .nil ∧
      (0 : Nat) < 0x8000000000000000) := by
  decide

/-- C1 (amended): for trees built through `my_insert` from offsets below
`2^63` — where the signed 64-bit difference comparison coincides with
unsigned order — `my_search` returns `none` exactly when no node stores the
key, and any returned record is a record of the tree storing that key. -/
theorem C1_amended_search_correct (ds : List Mytype) (k : Nat)
    (hds : ∀ d ∈ ds, d.keystring < H63) (hk : k < H63) :
    (my_search (buildTree ds) k = none ↔ k ∉ keys (buildTree ds)) ∧
    (∀ w, my_search (buildTree ds) k = some w →
      w ∈ nodes (buildTree ds) ∧ w.keystring = k) := by
  obtain ⟨hsm, hso⟩ := buildTree_inv ds hds
  exact my_search_spec (buildTree ds) hsm hso k hk

/-- C1 (witness): the amended theorem applied to a one-insert tree at offset
`0x1000`. -/
theorem C1_witness :
    (∀ d ∈ [mkNode 0x1000], d.keystring < H63) ∧ (0x1000 : Nat) < H63 ∧
    ((my_search (buildTree [mkNode 0x1000]) 0x1000 = none ↔
        (0x1000 : Nat) ∉ keys (buildTree [mkNode 0x1000])) ∧
      (∀ w, my_search (buildTree [mkNode 0x1000]) 0x1000 = some w →
        w ∈ nodes (buildTree [mkNode 0x1000]) ∧ w.keystring = 0x1000)) :=
  ⟨by decide, by decide,
    C1_amended_search_correct [mkNode 0x1000] 0x1000 (by decide) (by decide)⟩

/-- C2 (code bug): `npheap_getsize` is a stub returning 0 for every request
and every state; in particular with a region of size 4096 stored at offset
`0x1000` in the tree, GETSIZE at `0x1000` still returns 0, not 4096,
contradicting the function's own doc comment ("returns the size of the
struct we're looking for or 0 if not found"). -/
theorem C2_getsize_stub :
    (∀ cmd s, npheap_getsize cmd s = (0, s)) ∧
    (my_search (buildTree [⟨0x1000, ⟨0, 0x1000, 4096, 0⟩⟩]) 0x1000 =
        some ⟨0x1000, ⟨0, 0x1000, 4096, 0⟩⟩ ∧
      (npheap_getsize ⟨NPHEAP_IOCTL_GETSIZE, 0x1000, 0, 0⟩
          ⟨buildTree [⟨0x1000, ⟨0, 0x1000, 4096, 0⟩⟩], false⟩).1 = 0 ∧
      (0 : Int) ≠ 4096) :=
  ⟨fun _ _ => rfl, by decide, rfl, by decide⟩

/-- C3 (code bug): `npheap_delete` is a stub: it returns 0 (success) for
every request — never `RegionBusy` — and removes nothing from any state,
contradicting its own doc comment ("deletes a node into the rb tree"). -/
theorem C3_delete_stub : ∀ cmd s, npheap_delete cmd s = (0, s) :=
  fun _ _ => rfl

/-- C4 (counterexample): after the nine inserts of `seq9` (the ninth being a
re-insert of the key `my_search` misses), the tree holds two records with
the same offset key — `my_insert` accepted the duplicate, returning 1. -/
theorem C4_counterexample :
    (my_insert (buildTree seq8) (mkNode 0x4000000000000001)).1 = 1 ∧
    (keys (buildTree seq9)).count 0x4000000000000001 = 2 ∧
    ¬ (keys (buildTree seq9)).Nodup := by
  decide

/-- C4 (amended): for insert sequences whose offsets all lie below `2^63`,
the tree never holds two records with the same offset key. -/
theorem C4_amended_uniqueness (ds : List Mytype)
    (hds : ∀ d ∈ ds, d.keystring < H63) :
    (keys (buildTree ds)).Nodup :=
  List.Pairwise.imp (fun hab => Nat.ne_of_lt hab) ((buildTree_inv ds hds).2)

/-- C4 (witness): the amended theorem on a two-insert tree. -/
theorem C4_witness :
    (∀ d ∈ [mkNode 1, mkNode 2], d.keystring < H63) ∧
    (keys (buildTree [mkNode 1, mkNode 2])).Nodup :=
  ⟨by decide, C4_amended_uniqueness [mkNode 1, mkNode 2] (by decide)⟩

/-- C5 (code bug): `npheap_mmap` never creates or inserts a Region — both
branches of its search are empty in the source — so after a first mapping
request at an unseen offset the index is unchanged (here: still empty),
contradicting the inline comment "allocate space and insert into rb tree". -/
theorem C5_mmap_never_inserts :
    (∀ vma s, npheap_mmap vma s = (0, s)) ∧
    keys (npheap_mmap ⟨0, 4096, 1⟩ ⟨.nil, false⟩).2.mytree = [] := by
  constructor
  · intro vma s
    cases h : my_search s.mytree ((vma.vm_pgoff <<< PAGE_SHIFT) % M64) <;>
      simp [npheap_mmap, h]
  · decide

/-- C6 (counterexample): with the lock not held, UNLOCK still returns 0
(success) and performs no `NotHeld` check — the claim's "fails with NotHeld
when the lock is not currently held" does not hold on the code. -/
theorem C6_counterexample :
    (⟨RBTree.nil, false⟩ : KState).np_lock = false ∧
    npheap_unlock ⟨0, 0, 0, 0⟩ ⟨RBTree.nil, false⟩ = (0, ⟨RBTree.nil, false⟩) := by
  decide

/-- C6 (amended): UNLOCK returns success (0) for every caller — the request
record carries no holder identity and none is checked — and it also returns
success when the lock is not held: release-while-free is silently permitted
(`mutex_unlock` is called unconditionally; no `NotHeld` error exists). -/
theorem C6_amended_unlock_unconditional :
    ∀ cmd s, npheap_unlock cmd s = (0, { s with np_lock := false }) :=
  fun _ _ => rfl

/-- C8: lookup has no side effects: threading the module state through the
`my_search` loop returns the state exactly as given (tree, every record, and
lock state unchanged), and the result is `my_search` of the tree. -/
theorem C8_search_no_side_effects :
    ∀ k s, (my_search_op k s).2 = s ∧ (my_search_op k s).1 = my_search s.mytree k := by
  intro k s
  rw [my_search_op, my_search_loop_spec]
  exact ⟨rfl, rfl⟩

/-- C9 (counterexample): `my_insert` called with a key already present in a
reachable tree (built by `seq8`) does not return 0 — it returns 1 and links
a second node, changing the tree. -/
theorem C9_counterexample :
    0x4000000000000001 ∈ keys (buildTree seq8) ∧
    (my_insert (buildTree seq8) (mkNode 0x4000000000000001)).1 = 1 ∧
    (my_insert (buildTree seq8) (mkNode 0x4000000000000001)).2 ≠ buildTree seq8 := by
  decide

/-- C9 (amended): for trees built from offsets below `2^63`, inserting an
already-present key returns 0 and hands back the tree completely unchanged
(the caller's node is never linked). -/
theorem C9_amended_dup_insert_noop (ds : List Mytype) (d : Mytype)
    (hds : ∀ x ∈ ds, x.keystring < H63) (hd : d.keystring < H63)
    (hmem : d.keystring ∈ keys (buildTree ds)) :
    my_insert (buildTree ds) d = (0, buildTree ds) := by
  obtain ⟨hsm, hso⟩ := buildTree_inv ds hds
  cases hb : bstInsert (buildTree ds) d with
  | none => exact my_insert_of_dup _ _ hb
  | some t' =>
    obtain ⟨hnot, _, _, _⟩ := (bstInsert_spec d hd _ hsm hso).2 t' hb
    exact absurd hmem hnot

/-- C9 (witness): re-inserting offset 5 into the one-node tree at offset 5
returns 0 with the tree unchanged. -/
theorem C9_witness :
    (∀ x ∈ [mkNode 5], x.keystring < H63) ∧ (mkNode 5).keystring < H63 ∧
    (mkNode 5).keystring ∈ keys (buildTree [mkNode 5]) ∧
    my_insert (buildTree [mkNode 5]) (mkNode 5) = (0, buildTree [mkNode 5]) :=
  ⟨by decide, by decide, by decide,
    C9_amended_dup_insert_noop [mkNode 5] (mkNode 5) (by decide) (by decide) (by decide)⟩

/-- C10: for every command code other than the four defined opcodes,
`npheap_ioctl` returns `-ENOTTY` and leaves the whole module state (index,
records, lock) unchanged. -/
theorem C10_ioctl_default (cmd : Nat) (arg : NpheapCmd) (s : KState)
    (h1 : cmd ≠ NPHEAP_IOCTL_LOCK) (h2 : cmd ≠ NPHEAP_IOCTL_UNLOCK)
    (h3 : cmd ≠ NPHEAP_IOCTL_GETSIZE) (h4 : cmd ≠ NPHEAP_IOCTL_DELETE) :
    npheap_ioctl cmd arg s = (-ENOTTY, s) := by
  simp [npheap_ioctl, h1, h2, h3, h4]

/-- C10 (witness): command code 999 is rejected with `-ENOTTY` and the state
survives untouched. -/
theorem C10_witness :
    (999 ≠ NPHEAP_IOCTL_LOCK ∧ 999 ≠ NPHEAP_IOCTL_UNLOCK ∧
      999 ≠ NPHEAP_IOCTL_GETSIZE ∧ 999 ≠ NPHEAP_IOCTL_DELETE) ∧
    npheap_ioctl 999 ⟨0, 0, 0, 0⟩ ⟨RBTree.nil, false⟩ =
      (-ENOTTY, ⟨RBTree.nil, false⟩) :=
  ⟨⟨by decide, by decide, by decide, by decide⟩,
    C10_ioctl_default 999 ⟨0, 0, 0, 0⟩ ⟨RBTree.nil, false⟩
      (by decide) (by decide) (by decide) (by decide)⟩
